import Mathlib

/-!
Verification of the `dme_hu_maxpot` ingest pipeline and dataframe feature
engineering, shallowly embedded from `src/backend/utils.py` and the dashboard
pages `src/app/pages/1_Nederland.py`, `src/app/pages/2_Gemeentes.py`,
`src/app/pages/4_Voorspellen_Bevolkingsgroei.py`.

The development has three parts:
* a generic keyed insert-or-update ("upsert") theory over association lists,
  instantiated both by the database upsert (modelled from the spec, since
  `backend/crud.py` is not available) and by the Python-dict row flattening;
* a polars-like dataframe model (cells are null / rational / ±inf / NaN /
  string) for `growth_columns_by_year` and `divide_columns_by_column`;
* an operational model of the multi-process paginated CBS fetch
  (`get_data_from_cbs` / `parse_response_typed_dataset`) with a shared
  atomically advanced cursor, and of the metadata fetch
  (`get_metadata_from_cbs` / `parse_response_metadata`).
-/

namespace DmeHuMaxpot

/-! ### Generic keyed upsert over association lists

`akUpsert key db r` inserts `r` if no element of `db` has the same key,
otherwise rewrites every element with that key to `r` in place.  This is both
the Python `dict` assignment semantics (key = first component) and the
spec's natural-key DB upsert (insert if absent, update if present,
last-write-wins). -/

section AK

variable {α β : Type} [DecidableEq β] (key : α → β)

def akMem (db : List α) (k : β) : Bool :=
  db.any (fun e => decide (key e = k))

def akUpsert (db : List α) (r : α) : List α :=
  if akMem key db (key r) then
    db.map (fun e => if key e = key r then r else e)
  else
    db ++ [r]

def akUpsertAll (db : List α) (rs : List α) : List α :=
  rs.foldl (akUpsert key) db

theorem akUpsertAll_nil (db : List α) : akUpsertAll key db [] = db := rfl

theorem akUpsertAll_cons (db : List α) (r : α) (rest : List α) :
    akUpsertAll key db (r :: rest) = akUpsertAll key (akUpsert key db r) rest := rfl

/-- The last element of `rs` whose key is `k`, if any. -/
def akLast (rs : List α) (k : β) : Option α :=
  rs.foldl (fun acc e => if key e = k then some e else acc) none

/-- Rewrite an element to the last value its key receives in `rs`. -/
def akPatch (rs : List α) (e : α) : α :=
  match akLast key rs (key e) with
  | some r => r
  | none => e

theorem akLast_shadow (rs : List α) (k : β) (acc : Option α) :
    rs.foldl (fun acc e => if key e = k then some e else acc) acc =
      match akLast key rs k with
      | some y => some y
      | none => acc := by
  induction rs generalizing acc with
  | nil => simp [akLast]
  | cons r rest ih =>
    simp only [List.foldl_cons, akLast]
    by_cases h : key r = k
    · rw [if_pos h, if_pos h, ih (some r)]
      rcases akLast key rest k with _ | y <;> rfl
    · rw [if_neg h, if_neg h, ih acc, ih none]
      rcases akLast key rest k with _ | y <;> rfl

theorem akLast_cons (r : α) (rest : List α) (k : β) :
    akLast key (r :: rest) k =
      match akLast key rest k with
      | some y => some y
      | none => if key r = k then some r else none := by
  simp only [akLast, List.foldl_cons]
  by_cases h : key r = k
  · rw [if_pos h]
    exact akLast_shadow key rest k (some r)
  · rw [if_neg h]
    exact akLast_shadow key rest k none

theorem akLast_eq_none_iff (rs : List α) (k : β) :
    akLast key rs k = none ↔ ∀ e ∈ rs, key e ≠ k := by
  induction rs with
  | nil => simp [akLast]
  | cons r rest ih =>
    rw [akLast_cons]
    rcases hlast : akLast key rest k with _ | y
    · constructor
      · intro h e he
        rcases List.mem_cons.mp he with rfl | hemem
        · by_cases hr : key e = k
          · rw [if_pos hr] at h; cases h
          · exact hr
        · exact ih.mp hlast e hemem
      · intro h
        rw [if_neg (h r (List.mem_cons_self r rest))]
    · constructor
      · intro h; cases h
      · intro h
        exact absurd hlast (by
          rw [ih.mpr (fun e he => h e (List.mem_cons_of_mem r he))]
          simp)

theorem akLast_key (rs : List α) (k : β) (y : α) (h : akLast key rs k = some y) :
    key y = k := by
  induction rs with
  | nil => simp [akLast] at h
  | cons r rest ih =>
    rw [akLast_cons] at h
    rcases hlast : akLast key rest k with _ | z
    · rw [hlast] at h
      by_cases hr : key r = k
      · rw [if_pos hr] at h
        cases h; exact hr
      · rw [if_neg hr] at h; cases h
    · rw [hlast] at h
      cases h
      exact ih hlast

theorem key_replace (r e : α) :
    key (if key e = key r then r else e) = key e := by
  by_cases h : key e = key r <;> simp [h]

theorem akMem_map_replace (db : List α) (r : α) (k : β) :
    akMem key (db.map (fun e => if key e = key r then r else e)) k = akMem key db k := by
  induction db with
  | nil => rfl
  | cons e rest ih =>
    simp only [akMem, List.map_cons, List.any_cons] at ih ⊢
    rw [key_replace key r e, ih]

theorem akMem_akUpsert (db : List α) (r : α) (k : β) :
    akMem key (akUpsert key db r) k = (akMem key db k || decide (key r = k)) := by
  by_cases hmem : akMem key db (key r)
  · rw [akUpsert, if_pos hmem, akMem_map_replace]
    by_cases hk : key r = k
    · subst hk
      simp [hmem]
    · simp [hk]
  · rw [akUpsert, if_neg hmem, akMem, List.any_append]
    simp [akMem]

theorem akMem_akUpsertAll_of (rs : List α) (db : List α) (k : β)
    (h : akMem key db k = true) : akMem key (akUpsertAll key db rs) k = true := by
  induction rs generalizing db with
  | nil => exact h
  | cons r rest ih =>
    rw [akUpsertAll_cons]
    exact ih (akUpsert key db r) (by rw [akMem_akUpsert, h, Bool.true_or])

theorem akMem_akUpsertAll_mem (rs : List α) :
    ∀ (db : List α) (r : α), r ∈ rs →
      akMem key (akUpsertAll key db rs) (key r) = true := by
  induction rs with
  | nil => intro db r h; cases h
  | cons r' rest ih =>
    intro db r h
    rw [akUpsertAll_cons]
    rcases List.mem_cons.mp h with rfl | hmem
    · exact akMem_akUpsertAll_of key rest (akUpsert key db r) (key r)
        (by rw [akMem_akUpsert]; simp)
    · exact ih (akUpsert key db r') r hmem

theorem akPatch_nil (e : α) : akPatch key [] e = e := rfl

/-- When every key of `rs` is already present in `db`, running the whole batch
is a pointwise in-place rewrite to the last value each key receives. -/
theorem akUpsertAll_eq_map_patch (rs : List α) :
    ∀ (db : List α), (∀ r ∈ rs, akMem key db (key r) = true) →
      akUpsertAll key db rs = db.map (akPatch key rs) := by
  induction rs with
  | nil =>
    intro db _
    rw [akUpsertAll_nil, List.map_congr_left (fun e _ => akPatch_nil key e), List.map_id']
  | cons r rest ih =>
    intro db h
    rw [akUpsertAll_cons]
    have hr : akMem key db (key r) = true := h r (List.mem_cons_self r rest)
    have hstep : akUpsert key db r = db.map (fun e => if key e = key r then r else e) := by
      rw [akUpsert, if_pos hr]
    rw [hstep]
    have hrest : ∀ r' ∈ rest,
        akMem key (db.map (fun e => if key e = key r then r else e)) (key r') = true := by
      intro r' hmem
      rw [akMem_map_replace]
      exact h r' (List.mem_cons_of_mem r hmem)
    rw [ih _ hrest, List.map_map]
    apply List.map_congr_left
    intro e _
    simp only [Function.comp]
    by_cases hk : key e = key r
    · simp only [if_pos hk, akPatch, akLast_cons, hk]
      rcases hlast : akLast key rest (key r) with _ | y <;> simp [hlast]
    · simp only [if_neg hk, akPatch, akLast_cons]
      have hk' : key r ≠ key e := fun hre => hk hre.symm
      rcases hlast : akLast key rest (key e) with _ | y <;> simp [hlast, hk']

theorem akUpsert_preserves_other (db : List α) (r x : α) (k : β)
    (hk : key r ≠ k) (hx : x ∈ akUpsert key db r) (hxk : key x = k) : x ∈ db := by
  by_cases hmem : akMem key db (key r)
  · rw [akUpsert, if_pos hmem] at hx
    rcases List.mem_map.mp hx with ⟨e, he, hex⟩
    by_cases hek : key e = key r
    · rw [if_pos hek] at hex
      subst hex
      exact absurd hxk hk
    · rw [if_neg hek] at hex
      subst hex
      exact he
  · rw [akUpsert, if_neg hmem] at hx
    rcases List.mem_append.mp hx with h | h
    · exact h
    · rcases List.mem_singleton.mp h with rfl
      exact absurd hxk hk

theorem akUpsertAll_preserves_key (rest : List α) (k : β) :
    ∀ (db : List α), (∀ e ∈ rest, key e ≠ k) → ∀ x ∈ akUpsertAll key db rest,
      key x = k → x ∈ db := by
  induction rest with
  | nil => intro db _ x hx _; exact hx
  | cons r' rest' ih =>
    intro db hrest x hx hxk
    rw [akUpsertAll_cons] at hx
    have hx' : x ∈ akUpsert key db r' :=
      ih (akUpsert key db r') (fun e he => hrest e (List.mem_cons_of_mem r' he)) x hx hxk
    exact akUpsert_preserves_other key db r' x k
      (hrest r' (List.mem_cons_self r' rest')) hx' hxk

theorem akUpsert_mem_key_eq (db : List α) (r x : α)
    (hx : x ∈ akUpsert key db r) (hxk : key x = key r) : x = r := by
  by_cases hmem : akMem key db (key r)
  · rw [akUpsert, if_pos hmem] at hx
    rcases List.mem_map.mp hx with ⟨e, _, hex⟩
    by_cases hek : key e = key r
    · rw [if_pos hek] at hex; exact hex.symm
    · rw [if_neg hek] at hex
      subst hex
      exact absurd hxk hek
  · rw [akUpsert, if_neg hmem] at hx
    rcases List.mem_append.mp hx with h | h
    · exfalso
      have : akMem key db (key r) = true := by
        rw [akMem, List.any_eq_true]
        exact ⟨x, h, by simp [hxk]⟩
      exact hmem this
    · exact List.mem_singleton.mp h

/-- Every element of a fully applied batch is already rewritten to its final
value: patching it again changes nothing. -/
theorem akPatch_fixed_of_mem (rs : List α) :
    ∀ (db : List α) (x : α), x ∈ akUpsertAll key db rs → akPatch key rs x = x := by
  induction rs with
  | nil => intro db x _; exact akPatch_nil key x
  | cons r rest ih =>
    intro db x hx
    rw [akUpsertAll_cons] at hx
    have hrest := ih (akUpsert key db r) x hx
    rw [akPatch, akLast_cons]
    rcases hlast : akLast key rest (key x) with _ | y
    · by_cases hk : key r = key x
      · simp only [if_pos hk]
        have hnone : ∀ e ∈ rest, key e ≠ key x :=
          (akLast_eq_none_iff key rest (key x)).mp hlast
        have hx' : x ∈ akUpsert key db r :=
          akUpsertAll_preserves_key key rest (key x) (akUpsert key db r) hnone x hx rfl
        exact (akUpsert_mem_key_eq key db r x hx' hk.symm).symm
      · simp [hk]
    · rw [akPatch, hlast] at hrest
      exact hrest

/-- Keyed upsert of a batch is idempotent. -/
theorem akUpsertAll_idem (db : List α) (rs : List α) :
    akUpsertAll key (akUpsertAll key db rs) rs = akUpsertAll key db rs := by
  have hmem : ∀ r ∈ rs, akMem key (akUpsertAll key db rs) (key r) = true :=
    fun r hr => akMem_akUpsertAll_mem key rs db r hr
  rw [akUpsertAll_eq_map_patch key rs _ hmem,
    List.map_congr_left (fun x hx => akPatch_fixed_of_mem key rs db x hx), List.map_id']

/-- The first element with key `k` (dict/DB read). -/
def akLookup (db : List α) (k : β) : Option α :=
  db.find? (fun e => decide (key e = k))

theorem akLookup_map_replace (r : α) (k : β) :
    ∀ db : List α,
      akLookup key (db.map (fun e => if key e = key r then r else e)) k =
        if key r = k then (if akMem key db k then some r else none)
        else akLookup key db k := by
  intro db
  induction db with
  | nil =>
    by_cases hk : key r = k <;> simp [akLookup, akMem, hk]
  | cons e rest ih =>
    simp only [akLookup, akMem] at ih ⊢
    rw [List.map_cons]
    by_cases hek : key e = k
    · by_cases hrk : key r = k
      · have her : key e = key r := by rw [hek, hrk]
        rw [List.find?_cons_of_pos _ (by simp only [key_replace key r e]; simp [hek])]
        rw [if_pos her, if_pos hrk, if_pos (by simp [List.any_cons, hek])]
      · have her : ¬ key e = key r := fun h => hrk (by rw [← h, hek])
        rw [List.find?_cons_of_pos _ (by simp only [key_replace key r e]; simp [hek])]
        rw [if_neg her, if_neg hrk, List.find?_cons_of_pos _ (by simp [hek])]
    · rw [List.find?_cons_of_neg _ (by simp only [key_replace key r e]; simp [hek]), ih]
      have hany : ((e :: rest).any (fun x => decide (key x = k))) =
          (rest.any (fun x => decide (key x = k))) := by
        simp [List.any_cons, hek]
      simp only [hany]
      rw [List.find?_cons_of_neg _ (by simp [hek])]

theorem akLookup_akUpsert (db : List α) (r : α) (k : β) :
    akLookup key (akUpsert key db r) k =
      if key r = k then some r else akLookup key db k := by
  by_cases hmem : akMem key db (key r)
  · rw [akUpsert, if_pos hmem, akLookup_map_replace]
    by_cases hrk : key r = k
    · rw [if_pos hrk, if_pos hrk, if_pos (by rw [← hrk]; exact hmem)]
    · rw [if_neg hrk, if_neg hrk]
  · rw [akUpsert, if_neg hmem, akLookup, List.find?_append]
    by_cases hrk : key r = k
    · have hnone : akLookup key db k = none := by
        rw [akLookup, List.find?_eq_none]
        intro x hx
        simp only [decide_eq_true_eq]
        intro hxk
        have : akMem key db (key r) = true := by
          rw [akMem, List.any_eq_true]
          exact ⟨x, hx, by simp [hxk, hrk]⟩
        exact hmem this
      rw [akLookup] at hnone
      rw [hnone, if_pos hrk]
      simp [hrk]
    · rw [if_neg hrk]
      rcases hdb : db.find? (fun e => decide (key e = k)) with _ | y
      · simp [akLookup, hdb, hrk]
      · simp [akLookup, hdb]

theorem akLookup_akUpsertAll (rs : List α) :
    ∀ (db : List α) (k : β),
      akLookup key (akUpsertAll key db rs) k =
        match akLast key rs k with
        | some y => some y
        | none => akLookup key db k := by
  induction rs with
  | nil => intro db k; simp [akUpsertAll_nil, akLast]
  | cons r rest ih =>
    intro db k
    rw [akUpsertAll_cons, ih (akUpsert key db r) k, akLast_cons]
    rcases akLast key rest k with _ | y
    · rw [akLookup_akUpsert]
      by_cases hrk : key r = k <;> simp [hrk]
    · rfl

end AK

/-! ### Load stage: `parse_parquet_to_db` (utils.py lines 154-170)

A chunk row after `df.cast(pl.Utf8)` is all-textual: we model it as a natural
key (the conflict-resolution key of the target table), the `regio_key`
column used by the filter, and the remaining textual attribute columns. -/

structure FactRow where
  natKey : String
  regioKey : String
  attrs : List (String × String)
deriving DecidableEq

/-- Modelled from the spec: `backend.crud.upsert` is not under `src/` (only its
callers are).  Per spec §3.5/§4 it upserts "using the natural key as the
conflict-resolution key (insert if absent, update attributes if present)" with
"last-write-wins on attribute columns". -/
def upsert (db : List FactRow) (data : List FactRow) : List FactRow :=
  akUpsertAll FactRow.natKey db data

/-- The rows `parse_parquet_to_db` passes to `upsert`: the chunk rows whose
`regio_key` is in the allowed `regios` series
(`df.filter(pl.col("regio_key").is_in(regios))`). -/
def passedRows (chunk : List FactRow) (regios : List String) : List FactRow :=
  chunk.filter (fun r => decide (r.regioKey ∈ regios))

/-- `parse_parquet_to_db(path, object, db_engine, regios)`: read the chunk file
(`chunk` is its row list, already cast to text), filter by allowed region keys,
and upsert into the database state `db`. -/
def parse_parquet_to_db (chunk : List FactRow) (regios : List String)
    (db : List FactRow) : List FactRow :=
  upsert db (passedRows chunk regios)

/-! ### Response flattening: `find_in_schema` and the per-entry row dict
(utils.py lines 76-82 and 93-99)

An XML feed entry is modelled as the list of its data-service child elements:
element name paired with optional text (`param.text` may be `None`). -/

abbrev Entry := List (String × Option String)

/-- `find_in_schema(entry, key)`: the text of the first child element named
`key`, or `None` when no such element exists (or it has no text). -/
def find_in_schema (entry : Entry) (key : String) : Option String :=
  match entry.find? (fun p => decide (p.1 = key)) with
  | none => none
  | some p => p.2

/-- A row dict as mutated by the loop
`for key, value in object.__resp_keys__().items(): row[value] = find_in_schema(entry, key)`.
Python-dict assignment updates in place or appends, i.e. `akUpsert` on the
first component. -/
abbrev RowDict := List (String × Option String)

/-- Process one feed entry against the field-mapping table `respKeys`
(external element name → internal attribute name), starting from whatever
state `row0` the shared `row` dict is in. -/
def processEntry (respKeys : List (String × String)) (row0 : RowDict)
    (entry : Entry) : RowDict :=
  akUpsertAll Prod.fst row0
    (respKeys.map (fun kv => (kv.2, find_in_schema entry kv.1)))

/-- Value lookup in the row dict. -/
def rowGet (row : RowDict) (k : String) : Option (Option String) :=
  match row.find? (fun p => decide (p.1 = k)) with
  | none => none
  | some p => some p.2

theorem rowGet_eq_akLookup (row : RowDict) (k : String) :
    rowGet row k =
      match akLookup Prod.fst row k with
      | none => none
      | some p => some p.2 := rfl

/-- Claim C3: the load stage is idempotent.  For every chunk file, allowed
region set, and prior database state, running `parse_parquet_to_db` (filter by
allowed regions, then natural-key upsert) twice yields exactly the same final
database rows as running it once.  (The upsert itself is modelled from the
spec, since `backend/crud.py` is not under `src/`.) -/
theorem parse_parquet_to_db_idempotent (chunk : List FactRow) (regios : List String)
    (db : List FactRow) :
    parse_parquet_to_db chunk regios (parse_parquet_to_db chunk regios db) =
      parse_parquet_to_db chunk regios db := by
  unfold parse_parquet_to_db upsert
  exact akUpsertAll_idem FactRow.natKey db (passedRows chunk regios)

/-- Claim C5: region filtering is complete.  Every row `parse_parquet_to_db`
passes to the upsert step has its region key in the allowed set, and no row
with a region key outside the set is ever among the upserted rows. -/
theorem passedRows_region_filter (chunk : List FactRow) (regios : List String) :
    (∀ r ∈ passedRows chunk regios, r.regioKey ∈ regios) ∧
      (∀ r : FactRow, r.regioKey ∉ regios → r ∉ passedRows chunk regios) := by
  constructor
  · intro r hr
    have := (List.mem_filter.mp hr).2
    simpa using this
  · intro r hout hr
    exact hout (by simpa using (List.mem_filter.mp hr).2)

theorem passedRows_region_filter_witness :
    (⟨"GM0001|2020", "GM0001", [("aantal", "17")]⟩ : FactRow).regioKey ∈ ["GM0001"] :=
  (passedRows_region_filter [⟨"GM0001|2020", "GM0001", [("aantal", "17")]⟩] ["GM0001"]).1
    ⟨"GM0001|2020", "GM0001", [("aantal", "17")]⟩ (by decide)

/-- Claim C4: flattening one feed entry with a field-mapping table is pure and
total.  The mapped field `v` of the record built from `entry` does not depend
on the state the shared `row` dict was left in by earlier entries (so the same
entry and mapping always produce the same record), and an element name absent
from the entry extracts to the null marker `none` rather than failing. -/
theorem processEntry_pure_and_total (respKeys : List (String × String))
    (entry : Entry) (row0 row1 : RowDict) (k v : String)
    (hkv : (k, v) ∈ respKeys) :
    rowGet (processEntry respKeys row0 entry) v =
        rowGet (processEntry respKeys row1 entry) v ∧
      ((∀ p ∈ entry, p.1 ≠ k) → find_in_schema entry k = none) := by
  constructor
  · have hmem : (v, find_in_schema entry k) ∈
        respKeys.map (fun kv => (kv.2, find_in_schema entry kv.1)) :=
      List.mem_map.mpr ⟨(k, v), hkv, rfl⟩
    have hlast : akLast Prod.fst
        (respKeys.map (fun kv => (kv.2, find_in_schema entry kv.1))) v ≠ none := by
      intro hnone
      exact ((akLast_eq_none_iff Prod.fst _ v).mp hnone) _ hmem rfl
    rcases hy : akLast Prod.fst
        (respKeys.map (fun kv => (kv.2, find_in_schema entry kv.1))) v with _ | y
    · exact absurd hy hlast
    · rw [rowGet_eq_akLookup, rowGet_eq_akLookup, processEntry, processEntry,
        akLookup_akUpsertAll, akLookup_akUpsertAll, hy]
  · intro habsent
    rw [find_in_schema]
    rw [List.find?_eq_none.mpr (by intro p hp; simp [habsent p hp])]

/-! ### Metadata fetch: `parse_response_metadata` / `get_metadata_from_cbs`
(utils.py lines 31-46 and 102-127)

The HTTP layer is a function from URL to either a `RequestError` (a raised
`requests` exception — there is no try/except anywhere on this path) or the
list of Atom entries of the response body. -/

structure RequestError where
  msg : String
deriving DecidableEq

/-- The entry loop of `parse_response_metadata`, with the `row` dict created
once before the loop and carried (never cleared) across entries. -/
def rowsOfEntries (respKeys : List (String × String)) :
    RowDict → List Entry → List RowDict
  | _, [] => []
  | row, e :: es =>
    processEntry respKeys row e :: rowsOfEntries respKeys (processEntry respKeys row e) es

/-- `parse_response_metadata(url, object)`: one synchronous request; a raised
HTTP error propagates (there is no handler); otherwise every Atom entry is
flattened through the `__resp_keys__` mapping table. -/
def parse_response_metadata (http : String → Except RequestError (List Entry))
    (url : String) (respKeys : List (String × String)) :
    Except RequestError (List RowDict) :=
  match http url with
  | .error e => .error e
  | .ok entries => .ok (rowsOfEntries respKeys [] entries)

def cbsMetaUrl (k : String) : String :=
  "https://opendata.cbs.nl/ODataFeed/odata/03759ned/" ++ k

/-- `get_metadata_from_cbs(db_engine, models_dict)`: iterate over the metadata
kinds in order, fetching and upserting each.  The result records, in order,
the per-kind upserted record batches, the URLs actually requested, and the
uncaught error (if any) that aborted the loop. -/
def get_metadata_from_cbs (http : String → Except RequestError (List Entry)) :
    List (String × List (String × String)) →
      List (String × List RowDict) × List String × Option RequestError
  | [] => ([], [], none)
  | (k, respKeys) :: rest =>
    match parse_response_metadata http (cbsMetaUrl k) respKeys with
    | .error e => ([], [cbsMetaUrl k], some e)
    | .ok data =>
      let r := get_metadata_from_cbs http rest
      ((k, data) :: r.1, cbsMetaUrl k :: r.2.1, r.2.2)

/-- Claim C7: the metadata fetcher fails with the `RequestError` whenever the
HTTP call does not succeed, and the first such failure aborts the whole
metadata sync: with all kinds before the failing kind `k` succeeding, the run
reports the error, upserts only the kinds before `k`, and requests no URL
beyond `k`'s (so no later kind is fetched or upserted and nothing is
retried). -/
theorem get_metadata_aborts_on_first_failure
    (http : String → Except RequestError (List Entry)) :
    (∀ (url : String) (respKeys : List (String × String)) (e : RequestError),
        http url = .error e →
          parse_response_metadata http url respKeys = .error e) ∧
      (∀ (pre : List (String × List (String × String))) (k : String)
          (respKeys : List (String × String))
          (rest : List (String × List (String × String))) (e : RequestError),
        (∀ p ∈ pre, ∃ d, parse_response_metadata http (cbsMetaUrl p.1) p.2 = .ok d) →
        http (cbsMetaUrl k) = .error e →
          (get_metadata_from_cbs http (pre ++ (k, respKeys) :: rest)).2.2 = some e ∧
            (get_metadata_from_cbs http (pre ++ (k, respKeys) :: rest)).1.map Prod.fst =
              pre.map Prod.fst ∧
            (get_metadata_from_cbs http (pre ++ (k, respKeys) :: rest)).2.1 =
              pre.map (fun p => cbsMetaUrl p.1) ++ [cbsMetaUrl k]) := by
  constructor
  · intro url respKeys e herr
    rw [parse_response_metadata, herr]
  · intro pre
    induction pre with
    | nil =>
      intro k respKeys rest e _ herr
      have hparse : parse_response_metadata http (cbsMetaUrl k) respKeys = .error e := by
        rw [parse_response_metadata, herr]
      simp [get_metadata_from_cbs, hparse]
    | cons p pre' ih =>
      intro k respKeys rest e hpre herr
      rcases hpre p (List.mem_cons_self p pre') with ⟨d, hd⟩
      rcases ih k respKeys rest e
        (fun q hq => hpre q (List.mem_cons_of_mem p hq)) herr with ⟨h1, h2, h3⟩
      rcases p with ⟨pk, presp⟩
      simp only [List.cons_append, get_metadata_from_cbs, hd, List.map_cons,
        List.append_eq]
      exact ⟨h1, by rw [h2], by rw [h3]⟩

theorem get_metadata_aborts_witness :
    (get_metadata_from_cbs
        (fun _ => Except.error ⟨"connection refused"⟩)
        [("Perioden", [("Key", "datum_key")])]).2.2 =
      some ⟨"connection refused"⟩ :=
  ((get_metadata_aborts_on_first_failure
      (fun _ => Except.error ⟨"connection refused"⟩)).2
    [] "Perioden" [("Key", "datum_key")] [] ⟨"connection refused"⟩
    (fun p hp => absurd hp (List.not_mem_nil p)) rfl).1

theorem processEntry_pure_and_total_witness :
    rowGet (processEntry [("Geslacht", "geslacht_key")] []
        [("Geslacht", some "3000")]) "geslacht_key" =
      rowGet (processEntry [("Geslacht", "geslacht_key")]
        [("geslacht_key", some "stale"), ("jaar", some "1999")]
        [("Geslacht", some "3000")]) "geslacht_key" :=
  (processEntry_pure_and_total [("Geslacht", "geslacht_key")]
    [("Geslacht", some "3000")] []
    [("geslacht_key", some "stale"), ("jaar", some "1999")]
    "Geslacht" "geslacht_key" (by decide)).1

/-! ### Polars dataframe model

Cells carry the values the pipeline actually produces: SQL/polars nulls,
finite numbers (as exact rationals), IEEE infinities and NaN from float
division, and strings (region names etc.).  A dataframe is a column-name list
plus a list of rows, each row a total valuation of column names. -/

inductive PVal where
  | null : PVal
  | num : ℚ → PVal
  | pinf : PVal
  | ninf : PVal
  | nan : PVal
  | str : String → PVal
deriving DecidableEq

/-- Polars subtraction: null propagates, NaN propagates, IEEE rules for
infinities; (string arithmetic does not occur on the verified paths). -/
def psub : PVal → PVal → PVal
  | .null, _ => .null
  | _, .null => .null
  | .nan, _ => .nan
  | _, .nan => .nan
  | .str _, _ => .nan
  | _, .str _ => .nan
  | .num a, .num b => .num (a - b)
  | .num _, .pinf => .ninf
  | .num _, .ninf => .pinf
  | .pinf, .num _ => .pinf
  | .ninf, .num _ => .ninf
  | .pinf, .pinf => .nan
  | .pinf, .ninf => .pinf
  | .ninf, .pinf => .ninf
  | .ninf, .ninf => .nan

/-- Polars float division: null propagates, NaN propagates, `x / 0` is
`±inf` for `x ≠ 0` and NaN for `0 / 0` (IEEE). -/
def pdiv : PVal → PVal → PVal
  | .null, _ => .null
  | _, .null => .null
  | .nan, _ => .nan
  | _, .nan => .nan
  | .str _, _ => .nan
  | _, .str _ => .nan
  | .num a, .num b =>
      if b = 0 then (if a = 0 then .nan else if 0 < a then .pinf else .ninf)
      else .num (a / b)
  | .num _, .pinf => .num 0
  | .num _, .ninf => .num 0
  | .pinf, .num b => if b < 0 then .ninf else .pinf
  | .ninf, .num b => if b < 0 then .pinf else .ninf
  | .pinf, _ => .nan
  | .ninf, _ => .nan

structure DF where
  cols : List String
  rows : List (String → PVal)

/-- `df.with_columns(expr.alias(name))`: attach a computed series under
`name`, replacing the column in place when the name already exists and
appending it otherwise. -/
def dfSetCol (df : DF) (name : String) (vals : List PVal) : DF :=
  { cols := if name ∈ df.cols then df.cols else df.cols ++ [name],
    rows := List.zipWith (fun r v => fun c => if c = name then v else r c) df.rows vals }

/-- `pl.col(colName).shift(1).over(regioCol)`: walk the rows in order keeping,
per group value of `regioCol`, the last seen `colName` value; each row reads
the previous value of its own group (null when the group is new). -/
def shiftOverGo (regioCol colName : String) :
    (PVal → PVal) → List (String → PVal) → List PVal
  | _, [] => []
  | last, r :: rs =>
    last (r regioCol) ::
      shiftOverGo regioCol colName
        (fun g => if g = r regioCol then r colName else last g) rs

def shiftOver (df : DF) (regioCol colName : String) : List PVal :=
  shiftOverGo regioCol colName (fun _ => PVal.null) df.rows

/-- `df.fill_nan(0)`: NaN cells become 0; nulls are untouched. -/
def fill_nan0 (df : DF) : DF :=
  { df with rows := df.rows.map (fun r c => match r c with | .nan => .num 0 | v => v) }

/-- One iteration of the loop body of `growth_columns_by_year`: attach
`{column}_previous_moment` (shift-over-regio), attach `{column}_growth`
(`(cur - prev) / prev`), then `fill_nan(0)` over the whole frame. -/
def growthStep (regioCol : String) (df : DF) (column : String) : DF :=
  let pm := column ++ "_previous_moment"
  let d1 := dfSetCol df pm (shiftOver df regioCol column)
  let gv := d1.rows.map (fun r => pdiv (psub (r column) (r pm)) (r pm))
  let d2 := dfSetCol d1 (column ++ "_growth") gv
  fill_nan0 d2

/-- The pandas round trip at the end of `growth_columns_by_year`:
`df_pd.replace([np.inf, -np.inf], 0)` zeroes infinities, and
`pl.from_pandas` (with its default `nan_to_null`) turns any remaining NaN
into null. -/
def replace_inf0 (df : DF) : DF :=
  { df with
    rows := df.rows.map (fun r c =>
      match r c with
      | .pinf => .num 0
      | .ninf => .num 0
      | .nan => .null
      | v => v) }

def useCols (df : DF) (columns_to_exclude : List String) : List String :=
  df.cols.filter (fun c => decide (c ∉ columns_to_exclude))

/-- `growth_columns_by_year(df, columns_to_exclude)` from utils.py
lines 173-195 (the group column is hard-coded to `"regio"`). -/
def growth_columns_by_year (df : DF) (columns_to_exclude : List String) : DF :=
  replace_inf0 ((useCols df columns_to_exclude).foldl (growthStep "regio") df)

/-- One iteration of the loop of `divide_columns_by_column`: attach
`{column}_relative = df[column] / df[divide_by_column]` over the current
frame. -/
def divStep (divide_by_column : String) (d : DF) (column : String) : DF :=
  dfSetCol d (column ++ "_relative")
    (d.rows.map (fun r => pdiv (r column) (r divide_by_column)))

/-- The columns the loop divides: those not in the exclude list after
`divide_by_column` has been appended to it. -/
def divTargets (df : DF) (divide_by_column : String)
    (columns_to_exclude : List String) : List String :=
  df.cols.filter (fun c => decide (c ∉ columns_to_exclude ++ [divide_by_column]))

/-- `divide_columns_by_column(df, divide_by_column, columns_to_exclude)` from
1_Nederland.py lines 103-116 / 2_Gemeentes.py lines 137-150.  The function
mutates the caller's `columns_to_exclude` by appending `divide_by_column`
before computing the target columns; the returned pair is (result frame,
exclude list as left for the caller). -/
def divide_columns_by_column (df : DF) (divide_by_column : String)
    (columns_to_exclude : List String) : DF × List String :=
  ((divTargets df divide_by_column columns_to_exclude).foldl
    (divStep divide_by_column) df,
   columns_to_exclude ++ [divide_by_column])

/-! ### Concrete frames for the growth-rate examples -/

/-- A single-region row with one measure column `bevolking`. -/
def mkRow (v : PVal) : String → PVal :=
  fun c => if c = "regio" then .str "NL01" else if c = "bevolking" then v else .null

/-- A two-row single-region series of measure values `a`, `b`. -/
def dfPair (a b : PVal) : DF :=
  ⟨["regio", "bevolking"], [mkRow a, mkRow b]⟩

/-- Claim C2: on a two-row single-region series, `growth_columns_by_year`
produces growth `[null, 0.5]` from `[100, 150]`, `[null, -1]` from
`[100, 0]`, and `[null, 0]` from `[0, 50]` (the raw infinite growth is
normalized to 0); the first observed period per region carries a null growth
value, which is not zero. -/
theorem growth_columns_examples :
    ((growth_columns_by_year (dfPair (.num 100) (.num 150)) ["regio"]).rows.map
        (fun r => r "bevolking_growth")) = [PVal.null, PVal.num (1/2)] ∧
      ((growth_columns_by_year (dfPair (.num 100) (.num 0)) ["regio"]).rows.map
        (fun r => r "bevolking_growth")) = [PVal.null, PVal.num (-1)] ∧
      ((growth_columns_by_year (dfPair (.num 0) (.num 50)) ["regio"]).rows.map
        (fun r => r "bevolking_growth")) = [PVal.null, PVal.num 0] ∧
      decide (PVal.null = PVal.num 0) = false := by
  refine ⟨?_, ?_, ?_, by decide⟩ <;>
    (simp [growth_columns_by_year, useCols, growthStep, dfSetCol, shiftOver, shiftOverGo,
      fill_nan0, replace_inf0, dfPair, mkRow, psub, pdiv]
     try norm_num)

/-! ### Frame-effect lemmas for `dfSetCol` and the two column loops -/

theorem shiftOverGo_length (regioCol colName : String) :
    ∀ (rows : List (String → PVal)) (last : PVal → PVal),
      (shiftOverGo regioCol colName last rows).length = rows.length := by
  intro rows
  induction rows with
  | nil => intro last; rfl
  | cons r rs ih => intro last; simp [shiftOverGo, ih]

theorem shiftOver_length (df : DF) (regioCol colName : String) :
    (shiftOver df regioCol colName).length = df.rows.length :=
  shiftOverGo_length regioCol colName df.rows _

theorem dfSetCol_rows_length (df : DF) (name : String) (vals : List PVal)
    (h : vals.length = df.rows.length) :
    (dfSetCol df name vals).rows.length = df.rows.length := by
  simp [dfSetCol, List.length_zipWith, h]

theorem dfSetCol_cols_of_not_mem (df : DF) (name : String) (vals : List PVal)
    (h : name ∉ df.cols) : (dfSetCol df name vals).cols = df.cols ++ [name] := by
  simp [dfSetCol, h]

theorem dfSetCol_cols_of_mem (df : DF) (name : String) (vals : List PVal)
    (h : name ∈ df.cols) : (dfSetCol df name vals).cols = df.cols := by
  simp [dfSetCol, h]

theorem zipSet_map_self (name : String) :
    ∀ (rows : List (String → PVal)) (vals : List PVal), vals.length = rows.length →
      (List.zipWith (fun r v => fun c => if c = name then v else r c) rows vals).map
          (fun r => r name) = vals := by
  intro rows
  induction rows with
  | nil =>
    intro vals h
    rw [List.length_nil] at h
    rw [List.length_eq_zero.mp h]
    rfl
  | cons r rs ih =>
    intro vals h
    rcases vals with _ | ⟨v, vs⟩
    · simp at h
    · simp only [List.zipWith_cons_cons, List.map_cons, if_pos rfl, if_true]
      rw [ih vs (by simpa using h)]

theorem zipSet_map_read (name : String) (g : (String → PVal) → PVal)
    (hg : ∀ (r : String → PVal) (v : PVal),
      g (fun c => if c = name then v else r c) = g r) :
    ∀ (rows : List (String → PVal)) (vals : List PVal), vals.length = rows.length →
      (List.zipWith (fun r v => fun c => if c = name then v else r c) rows vals).map g =
        rows.map g := by
  intro rows
  induction rows with
  | nil => intro vals _; simp
  | cons r rs ih =>
    intro vals h
    rcases vals with _ | ⟨v, vs⟩
    · simp at h
    · simp only [List.zipWith_cons_cons, List.map_cons]
      rw [hg r v, ih vs (by simpa using h)]

theorem dfSetCol_map_read_self (df : DF) (name : String) (vals : List PVal)
    (h : vals.length = df.rows.length) :
    (dfSetCol df name vals).rows.map (fun r => r name) = vals :=
  zipSet_map_self name df.rows vals h

theorem dfSetCol_map_read (df : DF) (name : String) (vals : List PVal)
    (g : (String → PVal) → PVal)
    (hg : ∀ (r : String → PVal) (v : PVal),
      g (fun c => if c = name then v else r c) = g r)
    (h : vals.length = df.rows.length) :
    (dfSetCol df name vals).rows.map g = df.rows.map g :=
  zipSet_map_read name g hg df.rows vals h

theorem fill_nan0_cols (df : DF) : (fill_nan0 df).cols = df.cols := rfl

theorem fill_nan0_rows_length (df : DF) : (fill_nan0 df).rows.length = df.rows.length := by
  simp [fill_nan0]

theorem replace_inf0_cols (df : DF) : (replace_inf0 df).cols = df.cols := rfl

theorem replace_inf0_rows_length (df : DF) :
    (replace_inf0 df).rows.length = df.rows.length := by
  simp [replace_inf0]

theorem growthStep_rows_length (regioCol : String) (df : DF) (column : String) :
    (growthStep regioCol df column).rows.length = df.rows.length := by
  rw [growthStep]
  have h1 : (dfSetCol df (column ++ "_previous_moment")
      (shiftOver df regioCol column)).rows.length = df.rows.length :=
    dfSetCol_rows_length df _ _ (shiftOver_length df regioCol column)
  rw [fill_nan0_rows_length, dfSetCol_rows_length _ _ _ (by simp [h1]), h1]

theorem growthStep_cols (regioCol : String) (df : DF) (column : String)
    (hpm : column ++ "_previous_moment" ∉ df.cols)
    (hgn : column ++ "_growth" ∉ df.cols)
    (hne : column ++ "_growth" ≠ column ++ "_previous_moment") :
    (growthStep regioCol df column).cols =
      df.cols ++ [column ++ "_previous_moment", column ++ "_growth"] := by
  rw [growthStep, fill_nan0_cols]
  rw [dfSetCol_cols_of_not_mem _ _ _ (by
      rw [dfSetCol_cols_of_not_mem _ _ _ hpm]
      simp [hgn, hne])]
  rw [dfSetCol_cols_of_not_mem _ _ _ hpm, List.append_assoc]
  rfl

/-- The two derived column names the loop creates for each processed column,
in processing order. -/
def derivedNames : List String → List String
  | [] => []
  | c :: cs => (c ++ "_previous_moment") :: (c ++ "_growth") :: derivedNames cs

theorem growthFold_frame (regioCol : String) :
    ∀ (cs : List String) (d : DF),
      (derivedNames cs).Nodup → (∀ n ∈ derivedNames cs, n ∉ d.cols) →
        (cs.foldl (growthStep regioCol) d).cols = d.cols ++ derivedNames cs ∧
          (cs.foldl (growthStep regioCol) d).rows.length = d.rows.length := by
  intro cs
  induction cs with
  | nil => intro d _ _; simp [derivedNames]
  | cons c cs' ih =>
    intro d hnodup hfresh
    have hpm_mem : (c ++ "_previous_moment") ∉ (c ++ "_growth") :: derivedNames cs' :=
      (List.nodup_cons.mp hnodup).1
    have hnodup' : ((c ++ "_growth") :: derivedNames cs').Nodup :=
      (List.nodup_cons.mp hnodup).2
    have hgn_mem : (c ++ "_growth") ∉ derivedNames cs' := (List.nodup_cons.mp hnodup').1
    have hnodup'' : (derivedNames cs').Nodup := (List.nodup_cons.mp hnodup').2
    have hpm : (c ++ "_previous_moment") ∉ d.cols :=
      hfresh _ (List.mem_cons_self _ _)
    have hgn : (c ++ "_growth") ∉ d.cols :=
      hfresh _ (List.mem_cons_of_mem _ (List.mem_cons_self _ _))
    have hne : (c ++ "_growth") ≠ (c ++ "_previous_moment") := by
      intro h
      exact hpm_mem (h ▸ List.mem_cons_self _ _)
    have hcols1 : (growthStep regioCol d c).cols =
        d.cols ++ [c ++ "_previous_moment", c ++ "_growth"] :=
      growthStep_cols regioCol d c hpm hgn hne
    have hfresh' : ∀ n ∈ derivedNames cs', n ∉ (growthStep regioCol d c).cols := by
      intro n hn
      rw [hcols1]
      intro hmem
      rcases List.mem_append.mp hmem with h | h
      · exact hfresh n (List.mem_cons_of_mem _ (List.mem_cons_of_mem _ hn)) h
      · rcases List.mem_cons.mp h with rfl | h
        · exact hpm_mem (List.mem_cons_of_mem _ hn)
        · rcases List.mem_singleton.mp h with rfl
          exact hgn_mem hn
    rcases ih (growthStep regioCol d c) hnodup'' hfresh' with ⟨hc, hl⟩
    constructor
    · rw [List.foldl_cons, hc, hcols1, List.append_assoc]
      rfl
    · rw [List.foldl_cons, hl, growthStep_rows_length]

/-- Claim C9 (amended): provided the derived column names
`{c}_previous_moment`, `{c}_growth` of the processed columns are pairwise
distinct and do not already occur in the input frame, `growth_columns_by_year`
keeps the row count, keeps every input column, and appends exactly the two new
columns for each input column not in `columns_to_exclude`. -/
theorem growth_columns_frame (df : DF) (columns_to_exclude : List String)
    (hnodup : (derivedNames (useCols df columns_to_exclude)).Nodup)
    (hfresh : ∀ n ∈ derivedNames (useCols df columns_to_exclude), n ∉ df.cols) :
    (growth_columns_by_year df columns_to_exclude).rows.length = df.rows.length ∧
      (growth_columns_by_year df columns_to_exclude).cols =
        df.cols ++ derivedNames (useCols df columns_to_exclude) := by
  rcases growthFold_frame "regio" (useCols df columns_to_exclude) df hnodup hfresh
    with ⟨hc, hl⟩
  rw [growth_columns_by_year, replace_inf0_cols, replace_inf0_rows_length]
  exact ⟨hl, hc⟩

theorem growth_columns_frame_witness :
    (growth_columns_by_year (dfPair (.num 100) (.num 150)) ["regio"]).rows.length =
        (dfPair (.num 100) (.num 150)).rows.length ∧
      (growth_columns_by_year (dfPair (.num 100) (.num 150)) ["regio"]).cols =
        (dfPair (.num 100) (.num 150)).cols ++
          derivedNames (useCols (dfPair (.num 100) (.num 150)) ["regio"]) :=
  growth_columns_frame (dfPair (.num 100) (.num 150)) ["regio"]
    (by decide) (by decide)

/-- A frame that already contains a column named `x_growth`: the loop then
overwrites it in place instead of adding a second new column for `x`. -/
def dfGrowthClash : DF := ⟨["regio", "x", "x_growth"], []⟩

/-- Claim C9 is false as stated for arbitrary input frames: on a frame whose
columns are `regio, x, x_growth` with `columns_to_exclude = [regio, x_growth]`
(so `x` is the single processed column), the result has 4 columns, not
`3 + 2·1 = 5`: only `x_previous_moment` is new, while `x_growth` is replaced
in place, so it is not the case that exactly two new columns are added for
each processed column. -/
theorem growth_columns_counterexample :
    (growth_columns_by_year dfGrowthClash ["regio", "x_growth"]).cols =
        ["regio", "x", "x_growth", "x_previous_moment"] ∧
      decide ((growth_columns_by_year dfGrowthClash ["regio", "x_growth"]).cols.length =
        dfGrowthClash.cols.length +
          2 * (useCols dfGrowthClash ["regio", "x_growth"]).length) = false := by
  decide

/-- The derived column names of `divide_columns_by_column`, in processing
order. -/
def relativeNames : List String → List String
  | [] => []
  | c :: cs => (c ++ "_relative") :: relativeNames cs

theorem divFold_frame (dcol : String) :
    ∀ (ts : List String) (d : DF),
      (relativeNames ts).Nodup →
      (∀ n ∈ relativeNames ts, n ∉ d.cols) →
      (∀ c ∈ ts, c ∉ relativeNames ts) →
      dcol ∉ relativeNames ts →
        (ts.foldl (divStep dcol) d).cols = d.cols ++ relativeNames ts ∧
          (ts.foldl (divStep dcol) d).rows.length = d.rows.length ∧
          (∀ name, name ∉ relativeNames ts →
            (ts.foldl (divStep dcol) d).rows.map (fun r => r name) =
              d.rows.map (fun r => r name)) ∧
          (∀ c ∈ ts,
            (ts.foldl (divStep dcol) d).rows.map (fun r => r (c ++ "_relative")) =
              d.rows.map (fun r => pdiv (r c) (r dcol))) := by
  intro ts
  induction ts with
  | nil =>
    intro d _ _ _ _
    refine ⟨by simp [relativeNames], rfl, fun name _ => rfl, fun c hc => absurd hc ?_⟩
    exact List.not_mem_nil c
  | cons c ts' ih =>
    intro d hnodup hfresh hself hdcol
    have hrel_nmem : (c ++ "_relative") ∉ relativeNames ts' :=
      (List.nodup_cons.mp hnodup).1
    have hnodup' : (relativeNames ts').Nodup := (List.nodup_cons.mp hnodup).2
    have hrel_cols : (c ++ "_relative") ∉ d.cols := hfresh _ (List.mem_cons_self _ _)
    have hvlen : (d.rows.map (fun r => pdiv (r c) (r dcol))).length = d.rows.length :=
      List.length_map _ _
    have hd1cols : (divStep dcol d c).cols = d.cols ++ [c ++ "_relative"] :=
      dfSetCol_cols_of_not_mem d _ _ hrel_cols
    have hd1len : (divStep dcol d c).rows.length = d.rows.length :=
      dfSetCol_rows_length d _ _ hvlen
    have hfresh' : ∀ n ∈ relativeNames ts', n ∉ (divStep dcol d c).cols := by
      intro n hn
      rw [hd1cols]
      intro hmem
      rcases List.mem_append.mp hmem with h | h
      · exact hfresh n (List.mem_cons_of_mem _ hn) h
      · rcases List.mem_singleton.mp h with rfl
        exact hrel_nmem hn
    have hself' : ∀ c' ∈ ts', c' ∉ relativeNames ts' :=
      fun c' hc' hmem =>
        hself c' (List.mem_cons_of_mem _ hc') (List.mem_cons_of_mem _ hmem)
    have hdcol' : dcol ∉ relativeNames ts' :=
      fun hmem => hdcol (List.mem_cons_of_mem _ hmem)
    rcases ih (divStep dcol d c) hnodup' hfresh' hself' hdcol' with ⟨ihc, ihl, ihread, ihval⟩
    refine ⟨?_, ?_, ?_, ?_⟩
    · rw [List.foldl_cons, ihc, hd1cols, List.append_assoc]
      rfl
    · rw [List.foldl_cons, ihl, hd1len]
    · intro name hname
      have hname' : name ∉ relativeNames ts' :=
        fun h => hname (List.mem_cons_of_mem _ h)
      have hnamerel : name ≠ c ++ "_relative" := by
        intro h
        exact hname (h ▸ List.mem_cons_self _ _)
      rw [List.foldl_cons, ihread name hname']
      exact dfSetCol_map_read d _ _ (fun r => r name)
        (fun r v => by simp [hnamerel]) hvlen
    · intro c' hc'
      rcases List.mem_cons.mp hc' with rfl | hc'mem
      · rw [List.foldl_cons, ihread _ hrel_nmem]
        exact dfSetCol_map_read_self d _ _ hvlen
      · have hcne : c' ≠ c ++ "_relative" := by
          intro h
          exact hself c' hc' (h ▸ List.mem_cons_self _ _)
        have hdne : dcol ≠ c ++ "_relative" := by
          intro h
          exact hdcol (h ▸ List.mem_cons_self _ _)
        rw [List.foldl_cons, ihval c' hc'mem]
        exact dfSetCol_map_read d _ _ (fun r => pdiv (r c') (r dcol))
          (fun r v => by simp [hcne, hdne]) hvlen

/-- Claim C10 (amended): provided the derived `{c}_relative` names are
pairwise distinct, do not already occur in the input frame, and differ from
`divide_by_column`, the function (i) hands back the caller's exclude list with
`divide_by_column` appended, (ii) appends exactly one `{c}_relative` column
for each input column `c` neither excluded nor equal to `divide_by_column`,
with values `c / divide_by_column` over the input frame, and (iii) creates no
other column — in particular `divide_by_column` itself never receives a
`_relative` column. -/
theorem divide_columns_spec (df : DF) (dcol : String) (ex : List String)
    (hnodup : (relativeNames (divTargets df dcol ex)).Nodup)
    (hfresh : ∀ n ∈ relativeNames (divTargets df dcol ex), n ∉ df.cols)
    (hdcol : dcol ∉ relativeNames (divTargets df dcol ex)) :
    (divide_columns_by_column df dcol ex).2 = ex ++ [dcol] ∧
      (divide_columns_by_column df dcol ex).1.cols =
        df.cols ++ relativeNames (divTargets df dcol ex) ∧
      (∀ c ∈ divTargets df dcol ex,
        (divide_columns_by_column df dcol ex).1.rows.map (fun r => r (c ++ "_relative")) =
          df.rows.map (fun r => pdiv (r c) (r dcol))) ∧
      (∀ s, s ∉ df.cols → s ∉ relativeNames (divTargets df dcol ex) →
        s ∉ (divide_columns_by_column df dcol ex).1.cols) := by
  have hself : ∀ c ∈ divTargets df dcol ex, c ∉ relativeNames (divTargets df dcol ex) := by
    intro c hc hmem
    exact hfresh c hmem (List.mem_filter.mp hc).1
  rcases divFold_frame dcol (divTargets df dcol ex) df hnodup hfresh hself hdcol
    with ⟨hc, _, _, hval⟩
  refine ⟨rfl, hc, hval, ?_⟩
  intro s hs1 hs2 hmem
  rw [divide_columns_by_column] at hmem
  simp only at hmem
  rw [hc] at hmem
  rcases List.mem_append.mp hmem with h | h
  · exact hs1 h
  · exact hs2 h

theorem divide_columns_spec_witness :
    (divide_columns_by_column (dfPair (.num 100) (.num 150)) "bevolking" ["regio"]).2 =
        ["regio", "bevolking"] ∧
      (divide_columns_by_column (dfPair (.num 100) (.num 150)) "bevolking"
          ["regio"]).1.cols =
        (dfPair (.num 100) (.num 150)).cols ++
          relativeNames (divTargets (dfPair (.num 100) (.num 150)) "bevolking" ["regio"]) :=
  ⟨(divide_columns_spec (dfPair (.num 100) (.num 150)) "bevolking" ["regio"]
      (by decide) (by decide) (by decide)).1,
   (divide_columns_spec (dfPair (.num 100) (.num 150)) "bevolking" ["regio"]
      (by decide) (by decide) (by decide)).2.1⟩

/-- A frame in which an input column is itself named like a derived column:
`a_relative` is a plain input column next to `a` and the divisor `d`. -/
def dfDivClash : DF :=
  ⟨["a", "a_relative", "d"],
   [fun c =>
      if c = "a" then .num 2
      else if c = "a_relative" then .num 100
      else if c = "d" then .num 1 else .null]⟩

/-- Claim C10 is false as stated for arbitrary input frames: with input
columns `a, a_relative, d`, divisor `d` and empty exclude list, the column
`a_relative` is itself a divide target, but its added column
`a_relative_relative` holds `2` (the overwritten `a_relative = a/d` divided by
`d`), not the input column divided by `d`, which is `100`. -/
theorem divide_columns_counterexample :
    ((divide_columns_by_column dfDivClash "d" []).1.rows.map
        (fun r => r "a_relative_relative")) = [PVal.num 2] ∧
      (dfDivClash.rows.map (fun r => pdiv (r "a_relative") (r "d"))) = [PVal.num 100] ∧
      decide ((PVal.num 2 : PVal) = PVal.num 100) = false := by
  refine ⟨?_, ?_, by decide⟩ <;>
    (simp [divide_columns_by_column, divTargets, divStep, dfSetCol, dfDivClash, pdiv]
     try norm_num)

/-! ### Bulk fact fetch: `get_data_from_cbs` / `parse_response_typed_dataset`
(utils.py lines 49-90 and 130-151)

Operational model.  `N` worker processes share one cursor
(`total_rows_processed`, a `multiprocessing.Value` with a lock).  One loop
iteration of a worker is one step: under the lock it reads the cursor as its
offset and advances the cursor by `chunk_size`; it then issues
`GET {url}?$skip={offset}`.  The remote dataset has `R` rows served in pages
of `chunk_size` rows from the requested offset (`page C R off`); the status
oracle `ok` says which offsets answer 200.  On a 200 response with zero
entries the worker breaks out of its loop (`wdone`); on a 200 response with
entries it appends the page's rows to its batch (collected here in `fetched`,
order irrelevant); on a non-200 response the `if response.status_code == 200`
guard skips the body and the `while True` loop simply continues.  `handed`
ghost-records the offsets handed out by the lock, in order. -/

structure FetchState (N : ℕ) where
  cursor : ℕ
  handed : List ℕ
  fetched : List ℕ
  wdone : Fin N → Bool

/-- The rows of the page served at `off`: row indices
`[off, min (off+C) R)`. -/
def page (C R off : ℕ) : List ℕ :=
  List.range' off (min C (R - off))

def stepF (C R : ℕ) (ok : ℕ → Bool) {N : ℕ} (s : FetchState N) (w : Fin N) :
    FetchState N :=
  if s.wdone w then s
  else
    let off := s.cursor
    let s' : FetchState N :=
      { s with cursor := s.cursor + C, handed := s.handed ++ [off] }
    if ok off then
      if (page C R off).length = 0 then
        { s' with wdone := fun v => if v = w then true else s.wdone v }
      else
        { s' with fetched := s.fetched ++ page C R off }
    else s'

def runF (C R : ℕ) (ok : ℕ → Bool) {N : ℕ} (s : FetchState N)
    (tr : List (Fin N)) : FetchState N :=
  tr.foldl (stepF C R ok) s

def initF (N : ℕ) : FetchState N :=
  ⟨0, [], [], fun _ => false⟩

/-- The all-200 status oracle. -/
def okAll : ℕ → Bool := fun _ => true

/-- Run invariant: the cursor is the chunk size times the number of lock
acquisitions; the handed-out offsets are exactly `0, C, 2C, …` in order; the
rows fetched so far are exactly the dataset rows below the cursor (each once);
and once any worker has terminated the cursor has passed the dataset end. -/
def InvF (C R : ℕ) {N : ℕ} (s : FetchState N) : Prop :=
  s.cursor = C * s.handed.length ∧
    s.handed = (List.range s.handed.length).map (fun k => k * C) ∧
    s.fetched.Perm (List.range (min s.cursor R)) ∧
    (∀ w, s.wdone w = true → R ≤ s.cursor)

theorem InvF_initF (C R N : ℕ) : InvF C R (initF N) := by
  refine ⟨by simp [initF], by simp [initF], ?_, by simp [initF]⟩
  simp [initF]

theorem InvF_stepF (C R : ℕ) {N : ℕ} (hC : 1 ≤ C) (s : FetchState N) (w : Fin N)
    (h : InvF C R s) : InvF C R (stepF C R okAll s w) := by
  obtain ⟨h1, h2, h3, h4⟩ := h
  rw [stepF]
  by_cases hdone : s.wdone w
  · rw [if_pos hdone]
    exact ⟨h1, h2, h3, h4⟩
  · rw [if_neg hdone]
    simp only [okAll, eq_self_iff_true, if_true]
    have hcur : s.cursor + C = C * (s.handed ++ [s.cursor]).length := by
      rw [List.length_append, List.length_singleton]
      rw [h1]
      ring
    have hhanded : s.handed ++ [s.cursor] =
        (List.range (s.handed ++ [s.cursor]).length).map (fun k => k * C) := by
      rw [List.length_append, List.length_singleton, List.range_succ, List.map_append,
        ← h2, List.map_singleton, h1, Nat.mul_comm]
    by_cases hpage : (page C R s.cursor).length = 0
    · rw [if_pos hpage]
      have hRoff : R ≤ s.cursor := by
        rw [page, List.length_range'] at hpage
        omega
      refine ⟨hcur, hhanded, ?_, ?_⟩
      · show s.fetched.Perm (List.range (min (s.cursor + C) R))
        have hmin : min (s.cursor + C) R = min s.cursor R := by omega
        rw [hmin]
        exact h3
      · show ∀ v, (if v = w then true else s.wdone v) = true → R ≤ s.cursor + C
        intro v hv
        by_cases hvw : v = w
        · omega
        · rw [if_neg hvw] at hv
          have := h4 v hv
          omega
    · rw [if_neg hpage]
      have hoff : s.cursor < R := by
        rw [page, List.length_range'] at hpage
        omega
      refine ⟨hcur, hhanded, ?_, ?_⟩
      · show (s.fetched ++ page C R s.cursor).Perm (List.range (min (s.cursor + C) R))
        have hsplit : List.range (min (s.cursor + C) R) =
            List.range (min s.cursor R) ++ page C R s.cursor := by
          have hmincur : min s.cursor R = s.cursor := by omega
          have hminsum : min (s.cursor + C) R = s.cursor + min C (R - s.cursor) := by
            omega
          rw [hmincur, hminsum, page, List.range_eq_range', List.range_eq_range',
            Nat.add_comm s.cursor (min C (R - s.cursor)), ← List.range'_append]
          simp
        rw [hsplit]
        exact h3.append (List.Perm.refl _)
      · show ∀ v, s.wdone v = true → R ≤ s.cursor + C
        intro v hv
        have := h4 v hv
        omega

theorem InvF_runF (C R : ℕ) {N : ℕ} (hC : 1 ≤ C) (tr : List (Fin N)) :
    ∀ s : FetchState N, InvF C R s → InvF C R (runF C R okAll s tr) := by
  induction tr with
  | nil => intro s h; exact h
  | cons a tr' ih =>
    intro s h
    exact ih (stepF C R okAll s a) (InvF_stepF C R hC s a h)

/-- Claim C1: with every request answered 200, for every chunk size `C ≥ 1`,
dataset size `R`, and worker count `N ≥ 1`, any interleaving of the workers'
atomic read-and-advance steps after which every worker has terminated has
fetched exactly the rows `0, …, R-1`, each exactly once (no duplicates, no
gaps), and the offsets handed out under the cursor lock are strictly
increasing, hence globally unique across workers. -/
theorem bulk_fetch_exactly_once (C R N : ℕ) (tr : List (Fin N))
    (hC : 1 ≤ C) (hN : 1 ≤ N)
    (hdone : ∀ w, (runF C R okAll (initF N) tr).wdone w = true) :
    (runF C R okAll (initF N) tr).fetched.Perm (List.range R) ∧
      List.Pairwise (· < ·) (runF C R okAll (initF N) tr).handed := by
  obtain ⟨h1, h2, h3, h4⟩ := InvF_runF C R hC tr (initF N) (InvF_initF C R N)
  have hR : R ≤ (runF C R okAll (initF N) tr).cursor :=
    h4 ⟨0, hN⟩ (hdone ⟨0, hN⟩)
  constructor
  · have hmin : min (runF C R okAll (initF N) tr).cursor R = R := by omega
    rw [hmin] at h3
    exact h3
  · rw [h2]
    rw [List.pairwise_map]
    exact (List.pairwise_lt_range _).imp
      (fun hab => (Nat.mul_lt_mul_right hC).mpr hab)

theorem bulk_fetch_exactly_once_witness :
    (runF 2 3 okAll (initF 2) [0, 0, 0, 1]).fetched.Perm (List.range 3) ∧
      List.Pairwise (· < ·) (runF 2 3 okAll (initF 2) [0, 0, 0, 1]).handed :=
  bulk_fetch_exactly_once 2 3 2 [0, 0, 0, 1] (by decide) (by decide) (by decide)

/-- Claim C6 (amended): a non-200 response does not stall the worker; the
`if response.status_code == 200` guard merely skips the parse body, so the
worker raises nothing, retries nothing, fetches nothing for that offset — and
its `while True` loop continues, so the cursor has already moved past the
failed page and that offset is never requested again. -/
theorem typed_fetch_non200_skips (C R : ℕ) (ok : ℕ → Bool) {N : ℕ}
    (s : FetchState N) (w : Fin N) (hrun : s.wdone w = false)
    (hfail : ok s.cursor = false) :
    (stepF C R ok s w).wdone w = false ∧
      (stepF C R ok s w).fetched = s.fetched ∧
      (stepF C R ok s w).cursor = s.cursor + C ∧
      (stepF C R ok s w).handed = s.handed ++ [s.cursor] := by
  rw [stepF, if_neg (by simp [hrun]), if_neg (by simp [hfail])]
  exact ⟨hrun, rfl, rfl, rfl⟩

theorem typed_fetch_non200_skips_witness :
    (stepF 2 4 (fun off => decide (off ≠ 0)) (initF 1) 0).wdone 0 = false ∧
      (stepF 2 4 (fun off => decide (off ≠ 0)) (initF 1) 0).fetched = (initF 1).fetched ∧
      (stepF 2 4 (fun off => decide (off ≠ 0)) (initF 1) 0).cursor = (initF 1).cursor + 2 ∧
      (stepF 2 4 (fun off => decide (off ≠ 0)) (initF 1) 0).handed =
        (initF 1).handed ++ [(initF 1).cursor] :=
  typed_fetch_non200_skips 2 4 (fun off => decide (off ≠ 0)) (initF 1) 0 rfl rfl

/-- Claim C6 is false as stated: with one worker, chunk size 2, dataset size
4, and offset 0 answering non-200, the worker does not stall after the failed
request — it goes on to request offsets 2 and 4 (further progress at different
offsets), fetches rows 2 and 3, and terminates; rows 0 and 1 are silently
skipped, never fetched. -/
theorem typed_fetch_non200_counterexample :
    (runF 2 4 (fun off => decide (off ≠ 0)) (initF 1) [0, 0, 0]).handed = [0, 2, 4] ∧
      (runF 2 4 (fun off => decide (off ≠ 0)) (initF 1) [0, 0, 0]).fetched = [2, 3] ∧
      (runF 2 4 (fun off => decide (off ≠ 0)) (initF 1) [0, 0, 0]).wdone 0 = true ∧
      decide ((0 : ℕ) ∈
        (runF 2 4 (fun off => decide (off ≠ 0)) (initF 1) [0, 0, 0]).fetched) = false := by
  decide

theorem stepF_done_mono (C R : ℕ) (ok : ℕ → Bool) {N : ℕ} (s : FetchState N)
    (w v : Fin N) (h : s.wdone v = true) : (stepF C R ok s w).wdone v = true := by
  rw [stepF]
  by_cases hdone : s.wdone w
  · rw [if_pos hdone]; exact h
  · rw [if_neg hdone]
    by_cases hok : ok s.cursor
    · rw [if_pos hok]
      by_cases hpage : (page C R s.cursor).length = 0
      · rw [if_pos hpage]
        show (if v = w then true else s.wdone v) = true
        by_cases hvw : v = w
        · rw [if_pos hvw]
        · rw [if_neg hvw]; exact h
      · rw [if_neg hpage]; exact h
    · rw [if_neg hok]; exact h

theorem runF_done_mono (C R : ℕ) (ok : ℕ → Bool) {N : ℕ} (v : Fin N) :
    ∀ (tr : List (Fin N)) (s : FetchState N), s.wdone v = true →
      (runF C R ok s tr).wdone v = true := by
  intro tr
  induction tr with
  | nil => intro s h; exact h
  | cons a tr' ih =>
    intro s h
    exact ih (stepF C R ok s a) (stepF_done_mono C R ok s a v h)

theorem stepF_cursor_le (C R : ℕ) (ok : ℕ → Bool) {N : ℕ} (s : FetchState N)
    (w : Fin N) : s.cursor ≤ (stepF C R ok s w).cursor := by
  rw [stepF]
  by_cases hdone : s.wdone w
  · rw [if_pos hdone]
  · rw [if_neg hdone]
    by_cases hok : ok s.cursor
    · rw [if_pos hok]
      by_cases hpage : (page C R s.cursor).length = 0
      · rw [if_pos hpage]
        show s.cursor ≤ s.cursor + C
        omega
      · rw [if_neg hpage]
        show s.cursor ≤ s.cursor + C
        omega
    · rw [if_neg hok]
      show s.cursor ≤ s.cursor + C
      omega

/-- A worker that is still running after its `k`-th lock acquisition saw, at
its last acquisition, an offset below `R`; since the cursor grows by `C` at
every acquisition, a still-running worker bounds the cursor from below. -/
theorem runF_live_bound (C R : ℕ) {N : ℕ} (w : Fin N) :
    ∀ (tr : List (Fin N)) (s : FetchState N),
      (runF C R okAll s tr).wdone w = false → 0 < tr.count w →
        s.cursor + C * (tr.count w - 1) < R := by
  intro tr
  induction tr with
  | nil => intro s _ hcnt; simp at hcnt
  | cons a tr' ih =>
    intro s hlive hcnt
    by_cases haw : a = w
    · subst haw
      by_cases hdone : s.wdone a
      · exact absurd (runF_done_mono C R okAll a tr' (stepF C R okAll s a)
          (stepF_done_mono C R okAll s a a hdone)) (by simp [runF] at hlive ⊢; exact hlive)
      · have hstep : runF C R okAll s (a :: tr') = runF C R okAll (stepF C R okAll s a) tr' := rfl
        by_cases hpage : (page C R s.cursor).length = 0
        · exfalso
          have hdone' : (stepF C R okAll s a).wdone a = true := by
            rw [stepF, if_neg (by simp [hdone])]
            simp only [okAll, eq_self_iff_true, if_true]
            rw [if_pos hpage]
            show (if a = a then true else s.wdone a) = true
            rw [if_pos rfl]
          have := runF_done_mono C R okAll a tr' _ hdone'
          rw [hstep] at hlive
          rw [this] at hlive
          cases hlive
        · have hoff : s.cursor < R := by
            rw [page, List.length_range'] at hpage
            omega
          have hcursor : (stepF C R okAll s a).cursor = s.cursor + C := by
            rw [stepF, if_neg (by simp [hdone])]
            simp only [okAll, eq_self_iff_true, if_true]
            rw [if_neg hpage]
          have hcount : (a :: tr').count a = tr'.count a + 1 := by
            rw [List.count_cons]
            simp
          by_cases hzero : tr'.count a = 0
          · rw [hcount, hzero]
            simpa using hoff
          · have hb := ih (stepF C R okAll s a) (by rw [hstep] at hlive; exact hlive)
              (by omega)
            rw [hcursor] at hb
            rw [hcount, Nat.add_sub_cancel]
            have hexp : C * (tr'.count a - 1) + C = C * tr'.count a := by
              rcases Nat.exists_eq_succ_of_ne_zero hzero with ⟨k, hk⟩
              rw [hk]
              simp
              ring
            omega
    · have hstep : runF C R okAll s (a :: tr') = runF C R okAll (stepF C R okAll s a) tr' := rfl
      have hcount : (a :: tr').count w = tr'.count w := by
        rw [List.count_cons]
        simp [haw]
      rw [hcount]
      have hb := ih (stepF C R okAll s a) (by rw [hstep] at hlive; exact hlive)
        (by omega)
      have := stepF_cursor_le C R okAll s a
      omega

/-- Claim C8: a still-running worker's step terminates the worker exactly when
the response is 200 and carries zero entries at the worker's own offset; and
under the precondition that the server returns an empty page for every offset
at or beyond the dataset size `R` and all requests succeed (oracle `okAll`),
every worker that acquires the lock often enough (any schedule giving it
`count` acquisitions with `R + C ≤ C·count`) has terminated, so once every
worker is scheduled long enough all workers exit and the parent's `join`
completes. -/
theorem typed_fetch_termination (C R : ℕ) :
    (∀ (ok : ℕ → Bool) (N : ℕ) (s : FetchState N) (w : Fin N),
        s.wdone w = false →
          ((stepF C R ok s w).wdone w = true ↔
            (ok s.cursor = true ∧ page C R s.cursor = []))) ∧
      (∀ (N : ℕ) (tr : List (Fin N)) (w : Fin N), 1 ≤ C →
        R + C ≤ C * tr.count w →
          (runF C R okAll (initF N) tr).wdone w = true) := by
  constructor
  · intro ok N s w hlive
    rw [stepF, if_neg (by simp [hlive])]
    by_cases hok : ok s.cursor
    · rw [if_pos hok]
      by_cases hpage : (page C R s.cursor).length = 0
      · rw [if_pos hpage]
        constructor
        · intro _
          exact ⟨hok, List.length_eq_zero.mp hpage⟩
        · intro _
          show (if w = w then true else s.wdone w) = true
          rw [if_pos rfl]
      · rw [if_neg hpage]
        constructor
        · intro h
          exact absurd h (by simp [hlive])
        · intro ⟨_, hp⟩
          exact absurd (by rw [hp]; rfl) hpage
    · rw [if_neg hok]
      constructor
      · intro h
        exact absurd h (by simp [hlive])
      · intro ⟨h, _⟩
        exact absurd h (by simp [hok])
  · intro N tr w hC hbound
    by_cases hdone : (runF C R okAll (initF N) tr).wdone w = true
    · exact hdone
    · exfalso
      have hlive : (runF C R okAll (initF N) tr).wdone w = false := by
        rcases hval : (runF C R okAll (initF N) tr).wdone w
        · rfl
        · exact absurd hval hdone
      rcases hcnt : tr.count w with _ | k
      · rw [hcnt] at hbound
        simp at hbound
        omega
      · have hb := runF_live_bound C R w tr (initF N) hlive (by omega)
        rw [hcnt] at hb
        simp only [Nat.add_sub_cancel] at hb
        have hexp : C * (k + 1) = C * k + C := by ring
        rw [hcnt] at hbound
        have hinit : (initF N).cursor = 0 := rfl
        rw [hinit] at hb
        omega

theorem typed_fetch_termination_witness :
    (runF 2 3 okAll (initF 1) [0, 0, 0]).wdone 0 = true :=
  (typed_fetch_termination 2 3).2 1 [0, 0, 0] 0 (by decide) (by decide)

end DmeHuMaxpot
